import Mathlib

/-!
Verification of the trade diff/sequence/classify/blend core of the
array-agents repository (src/agents/execution_agent.py and
src/agents/portfolio_manager.py), shallowly embedded in Lean 4.

Python `Decimal` and `float` amounts are modelled as exact rationals `ℚ`;
Python dicts (insertion ordered, assignment replaces in place) are modelled
as association lists `List (String × α)` with the `upsert` operation below.
-/

/-- A wallet / target position as consumed by the agents: the dict fields
`symbol`, `protocol_name`, `market_name`, `amount`, `obligation_type`. -/
structure Position where
  symbol : String
  protocol_name : String
  market_name : String
  amount : ℚ
  obligation_type : String
deriving DecidableEq, Repr

/-- A trade instruction dict as built by `_generate_execution_plan`:
`action`, the position identity fields, and the magnitude `amount`. -/
structure Trade where
  action : String
  symbol : String
  protocol_name : String
  market_name : String
  amount : ℚ
  obligation_type : String
deriving DecidableEq, Repr

/-- The identity key used by `_generate_execution_plan`:
`f"{symbol}:{protocol_name}:{market_name}"`. -/
def posKey (p : Position) : String :=
  p.symbol ++ ":" ++ p.protocol_name ++ ":" ++ p.market_name

/-- The key of the position a trade refers to (same three fields). -/
def tradeKey (t : Trade) : String :=
  t.symbol ++ ":" ++ t.protocol_name ++ ":" ++ t.market_name

/-- Python dict assignment `m[k] = f(m.get(k))`: if the key is present the
entry is replaced in place (insertion order kept), otherwise the new entry
is appended. -/
def upsert {α : Type} (f : Option α → α) (k : String) (m : List (String × α)) :
    List (String × α) :=
  if m.any (fun e => e.1 = k) then
    m.map (fun e => if e.1 = k then (k, f (some e.2)) else e)
  else m ++ [(k, f none)]

/-- Python dict lookup `m.get(k)`. -/
def lookupKey {α : Type} (m : List (String × α)) (k : String) : Option α :=
  (m.find? (fun e => e.1 = k)).map (fun e => e.2)

/-- One step of the map-building loops in `_generate_execution_plan`:
`positions[key] = {...}`. -/
def insertPos (m : List (String × Position)) (p : Position) :
    List (String × Position) :=
  upsert (fun _ => p) (posKey p) m

/-- The `current_positions` / `recommended_positions` dicts of
`_generate_execution_plan`: fold dict assignment over the input list. -/
def buildMap (ps : List Position) : List (String × Position) :=
  ps.foldl insertPos []

/-- Trade dict constructor: `action` plus the identity fields of `p`. -/
def mkTrade (action : String) (p : Position) (amount : ℚ) : Trade :=
  ⟨action, p.symbol, p.protocol_name, p.market_name, amount, p.obligation_type⟩

/-- Python `abs` on a rational, written so that the kernel can evaluate it. -/
def ratAbs (q : ℚ) : ℚ := if q < 0 then -q else q

theorem ratAbs_eq_abs (q : ℚ) : ratAbs q = |q| := by
  unfold ratAbs
  split
  · exact (abs_of_neg (by assumption)).symm
  · exact (abs_of_nonneg (le_of_not_lt (by assumption))).symm

/-- The body of the first loop of `_generate_execution_plan` for one entry of
`recommended_positions`: emit an `add` when the key is absent from
`current_positions`, otherwise apply the dust threshold to the delta. -/
def tradeForTarget (dust : ℚ) (cur : List (String × Position))
    (e : String × Position) : List Trade :=
  match lookupKey cur e.1 with
  | none => [mkTrade "add" e.2 e.2.amount]
  | some c =>
    let diff := e.2.amount - c.amount
    if ratAbs diff > dust then
      if diff > 0 then [mkTrade "increase" e.2 diff]
      else [mkTrade "decrease" e.2 (ratAbs diff)]
    else []

/-- The trade computation of `_generate_execution_plan` (lines 195–272),
with the hard-coded `Decimal('0.01')` dust threshold kept as a parameter:
first loop over `recommended_positions` (adds / increases / decreases),
then loop over `current_positions` emitting `remove` for keys absent from
`recommended_positions`. -/
def computeTradesWith (dust : ℚ) (current target : List Position) : List Trade :=
  let curMap := buildMap current
  let tgtMap := buildMap target
  (tgtMap.flatMap (tradeForTarget dust curMap)) ++
    ((curMap.filter (fun e => (lookupKey tgtMap e.1).isNone)).map
      (fun e => mkTrade "remove" e.2 e.2.amount))

/-- `_generate_execution_plan`'s trade list with the source's threshold
`Decimal('0.01')`. -/
def computeTrades (current target : List Position) : List Trade :=
  computeTradesWith (1/100) current target

/-- `action in ["remove", "decrease"]` — the withdrawal test of
`_determine_transaction_order`. -/
def isWithdrawal (t : Trade) : Bool :=
  t.action = "remove" || t.action = "decrease"

/-- The descending-amount comparison used with `reverse=True`: a stable sort
placing larger amounts first. -/
def amountGE (a b : Trade) : Prop := b.amount ≤ a.amount

instance : DecidableRel amountGE := fun a b => inferInstanceAs (Decidable (b.amount ≤ a.amount))

/-- `_determine_transaction_order` (lines 341–371): partition into
withdrawals (`remove`/`decrease`) and deposits (everything else), stably
sort each partition by amount descending, and concatenate withdrawals
before deposits. Python's stable `list.sort(reverse=True)` is modelled by
stable insertion sort with the descending comparison. -/
def determine_transaction_order (trades : List Trade) : List Trade :=
  let withdrawals := trades.filter isWithdrawal
  let deposits := trades.filter (fun t => !isWithdrawal t)
  withdrawals.insertionSort amountGE ++ deposits.insertionSort amountGE

/-- `_determine_trade_urgency` (portfolio_manager.py lines 531–558). -/
def determine_trade_urgency (yield_change : ℚ) (required_trades : List Trade) :
    String :=
  if required_trades.isEmpty then "none"
  else
    let significant_trades := required_trades.filter
      (fun t => t.action = "add" || t.action = "remove")
    let significant_yield_change : Bool := yield_change ≥ 1
    if significant_yield_change && significant_trades.length ≥ 2 then "high"
    else if significant_yield_change || significant_trades.length ≥ 2 then "medium"
    else "low"

/-- The key used by `_combine_strategies` and `_calculate_required_trades`
in portfolio_manager.py: `f"{protocol_name}|{market_name}"`. -/
def pmKey (p : Position) : String :=
  p.protocol_name ++ "|" ++ p.market_name

/-- The weight selection of `_generate_optimized_portfolio`
(portfolio_manager.py lines 277–306): `(yield_weight, risk_weight)` chosen
from the risk score. -/
def optimizationWeights (risk_score : ℚ) : ℚ × ℚ :=
  if risk_score < 3 then (8/10, 2/10)
  else if risk_score < 6 then (5/10, 5/10)
  else (2/10, 8/10)

/-- An entry of the `position_map` built by `_combine_strategies`. -/
structure BlendEntry where
  symbol : String
  protocol_name : String
  market_name : String
  yield_amount : ℚ
  risk_amount : ℚ
  obligation_type : String
deriving DecidableEq, Repr

/-- Python `round(q, 4)`: round to 4 decimal places, ties to even
(banker's rounding), on the exact rational value. -/
def roundHalfEven (q : ℚ) : ℤ :=
  let f := q.floor
  let frac := q - f
  if frac < 1/2 then f
  else if 1/2 < frac then f + 1
  else if f % 2 = 0 then f else f + 1

def round4 (q : ℚ) : ℚ := (roundHalfEven (q * 10000) : ℚ) / 10000

/-- The `position_map` entry created for a yield position by
`_combine_strategies`: `risk_amount` starts at 0. -/
def blendYieldEntry (p : Position) : BlendEntry :=
  ⟨p.symbol, p.protocol_name, p.market_name, p.amount, 0, p.obligation_type⟩

/-- The second loop body of `_combine_strategies` for one risk position:
set `risk_amount` on the existing entry, else create a fresh entry with
`yield_amount` 0. -/
def blendRiskStep (p : Position) (o : Option BlendEntry) : BlendEntry :=
  match o with
  | some e => { e with risk_amount := p.amount }
  | none => ⟨p.symbol, p.protocol_name, p.market_name, 0, p.amount,
      p.obligation_type⟩

/-- The `position_map` of `_combine_strategies` (lines 348–409): first add
every yield position (risk side 0), then for each risk position either set
`risk_amount` on the existing entry or append a fresh entry (yield side 0). -/
def blendMap (yield_positions risk_positions : List Position) :
    List (String × BlendEntry) :=
  risk_positions.foldl
    (fun m p => upsert (blendRiskStep p) (pmKey p) m)
    (yield_positions.foldl
      (fun m p => upsert (fun _ => blendYieldEntry p) (pmKey p) m) [])

/-- The output step of `_combine_strategies` for one entry of the position
map: include the position only when the weighted amount is positive; the
emitted amount is the weighted amount rounded to 4 decimal places. -/
def blendOutput (yield_weight risk_weight : ℚ) (e : String × BlendEntry) :
    Option Position :=
  let weighted := e.2.yield_amount * yield_weight +
    e.2.risk_amount * risk_weight
  if weighted > 0 then
    some ⟨e.2.symbol, e.2.protocol_name, e.2.market_name, round4 weighted,
      e.2.obligation_type⟩
  else none

/-- `_combine_strategies`: weight each entry of the position map and keep
exactly those with positive weighted amount. -/
def combine_strategies (yield_positions risk_positions : List Position)
    (yield_weight risk_weight : ℚ) : List Position :=
  (blendMap yield_positions risk_positions).filterMap
    (blendOutput yield_weight risk_weight)

/-- A trade dict emitted by `_calculate_required_trades` — `remove` and
`add` carry a single amount, `adjust` carries current, target and the
(rounded) signed difference. -/
inductive PMTrade where
  | remove (symbol protocol_name market_name : String) (amount : ℚ)
      (obligation_type : String)
  | adjust (symbol protocol_name market_name : String)
      (current_amount target_amount difference : ℚ) (obligation_type : String)
  | add (symbol protocol_name market_name : String) (amount : ℚ)
      (obligation_type : String)
deriving DecidableEq, Repr

/-- The `position_map`-style dict of `_calculate_required_trades`, keyed by
`protocol|market`. -/
def buildPMMap (ps : List Position) : List (String × Position) :=
  ps.foldl (fun m p => upsert (fun _ => p) (pmKey p) m) []

/-- The body of the first loop of `_calculate_required_trades` for one
entry of `current_map`: `remove` when the key is absent from `target_map`,
otherwise the relative 5% test — whose division
`abs(difference) / current_amount` raises `ZeroDivisionError` when the
current amount is zero, modelled as `none`. -/
def tradeForCurrent (tm : List (String × Position)) (e : String × Position) :
    Option (List PMTrade) :=
  match lookupKey tm e.1 with
  | none => some [.remove e.2.symbol e.2.protocol_name e.2.market_name
      e.2.amount e.2.obligation_type]
  | some t =>
    let difference := t.amount - e.2.amount
    if e.2.amount = 0 then none
    else if ratAbs difference / e.2.amount > 5/100 then
      some [.adjust e.2.symbol e.2.protocol_name e.2.market_name
        e.2.amount t.amount (round4 difference) e.2.obligation_type]
    else some []

/-- `_calculate_required_trades` (portfolio_manager.py lines 411–479): the
relative-threshold diff mode. The first loop walks `current_map` emitting
removes and adjusts (aborting with `ZeroDivisionError`, i.e. `none`, on a
shared key whose current amount is 0), the second loop emits an `add` for
every target key absent from `current_map`. -/
def calculate_required_trades (current_positions target_positions : List Position) :
    Option (List PMTrade) :=
  let cm := buildPMMap current_positions
  let tm := buildPMMap target_positions
  (cm.mapM (tradeForCurrent tm)).map
    (fun parts => parts.flatten ++
      ((tm.filter (fun e => (lookupKey cm e.1).isNone)).map
        (fun e => PMTrade.add e.2.symbol e.2.protocol_name e.2.market_name
          e.2.amount e.2.obligation_type)))

/-- The value of a run of decimal digit characters. -/
def digitsVal (cs : List Char) : Nat :=
  cs.foldl (fun n c => 10 * n + (c.toNat - 48)) 0

/-- A value accepted by the `Decimal` string constructor: either a finite
decimal (an exact rational) or one of the non-finite specials
(`NaN`, `sNaN`, `Infinity`), which exist as `Decimal` objects but have no
rational value. -/
inductive PyDecimal where
  | fin (q : ℚ)
  | nonfinite
deriving DecidableEq, Repr

/-- The characters `str.strip()` removes for ASCII input: space, `\t`,
`\n`, `\v`, `\f`, `\r` and the separator controls `0x1c`–`0x1f`. -/
def pyWhitespace (c : Char) : Bool :=
  c.toNat = 32 || (9 ≤ c.toNat && c.toNat ≤ 13) ||
    (28 ≤ c.toNat && c.toNat ≤ 31)

/-- Scale an exact rational by a signed power of ten (the exponent part of
a decimal literal). -/
def mulPow10 (q : ℚ) : ℤ → ℚ
  | .ofNat n => q * 10 ^ n
  | .negSucc n => q / 10 ^ (n + 1)

/-- Model of Python `Decimal(value)` on an ASCII string, following the
constructor's observed behaviour: whitespace is stripped at both ends,
underscores are then removed wherever they occur, and the remainder must
be `[sign] (digits [. digits] | . digits) [(e|E) [sign] digits]` or one of
the case-insensitive specials `inf`, `infinity`, `nan`+digits,
`snan`+digits (which yield non-finite `Decimal` objects). Anything else
makes the constructor raise, modelled as `none`. Non-ASCII input (Unicode
digits or whitespace, which Python transliterates) is outside this model
and rejected. -/
def parseDecimal (s : String) : Option PyDecimal :=
  let stripped := ((s.toList.dropWhile pyWhitespace).reverse.dropWhile
    pyWhitespace).reverse
  let cs := stripped.filter (fun c => !(c = '_'))
  let signRest : ℚ × List Char :=
    match cs with
    | '-' :: r => (-1, r)
    | '+' :: r => (1, r)
    | r => (1, r)
  let low := signRest.2.map Char.toLower
  if low = "inf".toList || low = "infinity".toList then some .nonfinite
  else if low.take 3 = "nan".toList && (low.drop 3).all Char.isDigit then
    some .nonfinite
  else if low.take 4 = "snan".toList && (low.drop 4).all Char.isDigit then
    some .nonfinite
  else
    let mant := signRest.2.takeWhile (fun c => !(c.toLower = 'e'))
    let expPart := signRest.2.drop mant.length
    let intPart := mant.takeWhile Char.isDigit
    let fracOk : Option (List Char) :=
      match mant.drop intPart.length with
      | [] => if intPart.isEmpty then none else some []
      | '.' :: frac =>
        if frac.all Char.isDigit && !(intPart.isEmpty && frac.isEmpty) then
          some frac
        else none
      | _ => none
    match fracOk with
    | none => none
    | some frac =>
      let expVal : Option ℤ :=
        match expPart with
        | [] => some 0
        | _ :: r2 =>
          let esignRest : ℤ × List Char :=
            match r2 with
            | '-' :: r3 => (-1, r3)
            | '+' :: r3 => (1, r3)
            | r3 => (1, r3)
          if esignRest.2.isEmpty || !(esignRest.2.all Char.isDigit) then none
          else some (esignRest.1 * digitsVal esignRest.2)
      match expVal with
      | none => none
      | some e =>
        some (.fin (mulPow10
          (signRest.1 *
            ((digitsVal intPart : ℚ) +
              (digitsVal frac : ℚ) / 10 ^ frac.length)) e))

/-- `_to_decimal` (execution_agent.py lines 398–403): `Decimal(value)`
inside a bare `try`/`except` that silently returns `Decimal('0')` on any
parse failure. Finite values are represented exactly; the non-finite
`Decimal` specials (`NaN`/`Infinity`), which have no rational value, are
mapped to 0 here and kept outside the theorems about unparsable input. -/
def to_decimal (s : String) : ℚ :=
  match parseDecimal s with
  | some (.fin q) => q
  | _ => 0

/-- A position dict as it arrives from wallet/recommendation JSON: the
amount still a string. -/
structure RawPosition where
  symbol : String
  protocol_name : String
  market_name : String
  amount : String
  obligation_type : String
deriving DecidableEq, Repr

/-- The per-position conversion `_generate_execution_plan` performs while
building its maps: `amount: self._to_decimal(position["amount"])`. -/
def parsePosition (p : RawPosition) : Position :=
  ⟨p.symbol, p.protocol_name, p.market_name, to_decimal p.amount,
    p.obligation_type⟩

/-- `_generate_execution_plan` on raw wallet / recommendation positions:
every amount goes through `_to_decimal` while the maps are built, then the
diff runs; since the key does not involve the amount, this equals parsing
each position first and diffing the parsed lists. -/
def generate_execution_plan_trades (wallet_positions ideal_positions : List RawPosition) :
    List Trade :=
  computeTrades (wallet_positions.map parsePosition)
    (ideal_positions.map parsePosition)

/-! ### Generic lemmas about the dict model -/

section DictLemmas

variable {α β γ δ : Type}

theorem upsert_of_not_any (f : Option α → α) (k : String)
    (m : List (String × α)) (h : m.any (fun e => e.1 = k) = false) :
    upsert f k m = m ++ [(k, f none)] := by
  simp only [upsert, h]
  simp

theorem find?_upsert_map (f : Option α → α) (k : String)
    (m : List (String × α)) :
    (m.map (fun e => if e.1 = k then (k, f (some e.2)) else e)).find?
        (fun e => e.1 = k) =
      (m.find? (fun e => e.1 = k)).map (fun e => (k, f (some e.2))) := by
  induction m with
  | nil => rfl
  | cons e m ih =>
    by_cases he : e.1 = k
    · simp [List.find?, he]
    · simp [List.find?, he, ih]

theorem find?_eq_none_of_not_any (k : String) (m : List (String × α))
    (h : m.any (fun e => e.1 = k) = false) :
    m.find? (fun e => e.1 = k) = none := by
  rw [List.find?_eq_none]
  intro e he hk
  have ht : m.any (fun e => e.1 = k) = true := List.any_eq_true.mpr ⟨e, he, hk⟩
  rw [h] at ht
  cases ht

theorem lookupKey_upsert_self (f : Option α → α) (k : String)
    (m : List (String × α)) :
    lookupKey (upsert f k m) k = some (f (lookupKey m k)) := by
  unfold upsert
  cases hb : m.any (fun e => e.1 = k) with
  | true =>
    rw [if_pos rfl]
    unfold lookupKey
    rw [find?_upsert_map]
    rcases hf : m.find? (fun e => e.1 = k) with _ | e
    · rcases List.any_eq_true.mp hb with ⟨e, he, hk⟩
      have hs : (m.find? (fun e => e.1 = k)).isSome = true :=
        List.find?_isSome.mpr ⟨e, he, hk⟩
      rw [hf] at hs
      cases hs
    · simp [hf]
  | false =>
    rw [if_neg (by simp)]
    unfold lookupKey
    rw [List.find?_append, find?_eq_none_of_not_any k m hb]
    simp

theorem find?_upsert_map_ne (f : Option α → α) (k k' : String)
    (m : List (String × α)) (hne : k' ≠ k) :
    (m.map (fun e => if e.1 = k then (k, f (some e.2)) else e)).find?
        (fun e => e.1 = k') = m.find? (fun e => e.1 = k') := by
  induction m with
  | nil => rfl
  | cons e m ih =>
    by_cases he : e.1 = k
    · have h1 : ¬ (k = k') := fun hkk => hne hkk.symm
      have h2 : ¬ (e.1 = k') := by rw [he]; exact h1
      simp only [List.map_cons, he, if_true, List.find?_cons]
      simp [h1, h2, ih]
    · simp only [List.map_cons, he, if_false]
      by_cases he' : e.1 = k'
      · simp [List.find?_cons, he']
      · simp [List.find?_cons, he', ih]

theorem lookupKey_upsert_ne (f : Option α → α) (k k' : String)
    (m : List (String × α)) (hne : k' ≠ k) :
    lookupKey (upsert f k m) k' = lookupKey m k' := by
  unfold upsert
  cases hb : m.any (fun e => e.1 = k) with
  | true =>
    rw [if_pos rfl]
    unfold lookupKey
    rw [find?_upsert_map_ne f k k' m hne]
  | false =>
    rw [if_neg (by simp)]
    unfold lookupKey
    rw [List.find?_append]
    rcases hf : m.find? (fun e => e.1 = k') with _ | e
    · have h1 : ¬ (k = k') := fun hkk => hne hkk.symm
      simp [hf, h1, List.find?]
    · simp [hf]

theorem mem_upsert (f : Option α → α) (k : String) (m : List (String × α))
    (x : String × α) (hx : x ∈ upsert f k m) :
    x ∈ m ∨ ∃ o, x = (k, f o) := by
  unfold upsert at hx
  cases hb : m.any (fun e => e.1 = k) with
  | true =>
    rw [if_pos hb] at hx
    rcases List.mem_map.mp hx with ⟨e, he, hex⟩
    by_cases hek : e.1 = k
    · right; exact ⟨some e.2, by rw [← hex]; simp [hek]⟩
    · left; rw [← hex]; simpa [hek] using he
  | false =>
    rw [if_neg (by simp [hb])] at hx
    rcases List.mem_append.mp hx with hx | hx
    · left; exact hx
    · right; exact ⟨none, by simpa using hx⟩

theorem keys_upsert (f : Option α → α) (k : String) (m : List (String × α)) :
    (upsert f k m).map Prod.fst =
      if m.any (fun e => e.1 = k) then m.map Prod.fst
      else m.map Prod.fst ++ [k] := by
  unfold upsert
  cases hb : m.any (fun e => e.1 = k) with
  | true =>
    rw [if_pos rfl, if_pos rfl, List.map_map]
    apply List.map_congr_left
    intro e _
    by_cases hek : e.1 = k <;> simp [hek]
  | false =>
    rw [if_neg (by simp), if_neg (by simp)]
    simp

theorem keysNodup_upsert (f : Option α → α) (k : String)
    (m : List (String × α)) (h : (m.map Prod.fst).Nodup) :
    ((upsert f k m).map Prod.fst).Nodup := by
  rw [keys_upsert]
  cases hb : m.any (fun e => e.1 = k) with
  | true => rw [if_pos rfl]; exact h
  | false =>
    rw [if_neg (by simp)]
    have hk : k ∉ m.map Prod.fst := by
      intro hmem
      rcases List.mem_map.mp hmem with ⟨e, he, hek⟩
      have ht : m.any (fun e => e.1 = k) = true :=
        List.any_eq_true.mpr ⟨e, he, by simp [hek]⟩
      rw [hb] at ht
      cases ht
    exact List.Nodup.append h (List.nodup_singleton k)
      (by simp [List.disjoint_singleton, hk])

theorem lookupKey_mem (m : List (String × α)) (k : String) (v : α)
    (h : lookupKey m k = some v) : (k, v) ∈ m := by
  unfold lookupKey at h
  rcases hf : m.find? (fun e => e.1 = k) with _ | e
  · rw [hf] at h; cases h
  · rw [hf] at h
    have he := List.find?_some hf
    have hm := List.mem_of_find?_eq_some hf
    simp at he h
    rw [← h, ← he]
    exact hm

theorem foldUpsert_keysNodup (key : β → String) (g : β → Option α → α)
    (bs : List β) (m : List (String × α)) (hm : (m.map Prod.fst).Nodup) :
    ((bs.foldl (fun m b => upsert (g b) (key b) m) m).map Prod.fst).Nodup := by
  induction bs generalizing m with
  | nil => exact hm
  | cons b bs ih =>
    exact ih (upsert (g b) (key b) m) (keysNodup_upsert (g b) (key b) m hm)

theorem foldUpsert_mem (key : β → String) (g : β → Option α → α)
    (bs : List β) (m : List (String × α)) (x : String × α)
    (hx : x ∈ bs.foldl (fun m b => upsert (g b) (key b) m) m) :
    x ∈ m ∨ ∃ b ∈ bs, ∃ o, x = (key b, g b o) := by
  induction bs generalizing m with
  | nil => exact Or.inl hx
  | cons b bs ih =>
    rcases ih (upsert (g b) (key b) m) hx with hx1 | ⟨b', hb', o, ho⟩
    · rcases mem_upsert (g b) (key b) m x hx1 with hx2 | ⟨o, ho⟩
      · exact Or.inl hx2
      · exact Or.inr ⟨b, List.mem_cons_self b bs, o, ho⟩
    · exact Or.inr ⟨b', List.mem_cons_of_mem b hb', o, ho⟩

theorem foldUpsert_lookup_of_no_key (key : β → String) (g : β → Option α → α)
    (bs : List β) (m : List (String × α)) (k : String)
    (h : ∀ b ∈ bs, key b ≠ k) :
    lookupKey (bs.foldl (fun m b => upsert (g b) (key b) m) m) k =
      lookupKey m k := by
  induction bs generalizing m with
  | nil => rfl
  | cons b bs ih =>
    rw [List.foldl_cons, ih _ (fun b' hb' => h b' (List.mem_cons_of_mem b hb')),
      lookupKey_upsert_ne (g b) (key b) k m
        (fun hk => h b (List.mem_cons_self b bs) hk.symm)]

theorem foldUpsert_lookup (key : β → String) (g : β → Option α → α)
    (bs : List β) (m : List (String × α)) (k : String)
    (hb : (bs.map key).Nodup) :
    lookupKey (bs.foldl (fun m b => upsert (g b) (key b) m) m) k =
      match bs.find? (fun b => key b = k) with
      | some b => some (g b (lookupKey m k))
      | none => lookupKey m k := by
  induction bs generalizing m with
  | nil => rfl
  | cons b bs ih =>
    rw [List.map_cons, List.nodup_cons] at hb
    by_cases hk : key b = k
    · have hno : ∀ b' ∈ bs, key b' ≠ k := by
        intro b' hb' hk'
        exact hb.1 (by rw [hk, ← hk']; exact List.mem_map_of_mem key hb')
      rw [List.foldl_cons, foldUpsert_lookup_of_no_key key g bs _ k hno, hk,
        lookupKey_upsert_self]
      simp [List.find?_cons, hk]
    · rw [List.foldl_cons, ih _ hb.2]
      rcases hf : bs.find? (fun b => key b = k) with _ | b'
      · simp only [List.find?_cons, hk]
        rw [lookupKey_upsert_ne (g b) (key b) k m (fun h => hk h.symm)]
        simp [hf, hk]
      · simp only [List.find?_cons, hk]
        rw [lookupKey_upsert_ne (g b) (key b) k m (fun h => hk h.symm)]
        simp [hf, hk]

theorem foldUpsert_disjoint (key : β → String) (g : β → Option α → α)
    (bs : List β) (m : List (String × α)) (hb : (bs.map key).Nodup)
    (hdisj : ∀ b ∈ bs, m.any (fun e => e.1 = key b) = false) :
    bs.foldl (fun m b => upsert (g b) (key b) m) m =
      m ++ bs.map (fun b => (key b, g b none)) := by
  induction bs generalizing m with
  | nil => simp
  | cons b bs ih =>
    rw [List.map_cons, List.nodup_cons] at hb
    rw [List.foldl_cons,
      upsert_of_not_any (g b) (key b) m (hdisj b (List.mem_cons_self b bs))]
    rw [ih (m ++ [(key b, g b none)]) hb.2]
    · simp
    · intro b' hb'
      rw [List.any_append]
      have h1 : m.any (fun e => e.1 = key b') = false :=
        hdisj b' (List.mem_cons_of_mem b hb')
      have h2 : key b ≠ key b' := by
        intro he
        exact hb.1 (by rw [he]; exact List.mem_map_of_mem key hb')
      simp [h1, h2]

theorem filter_key_flatMap_nil (keyOf : β → String)
    (h : (String × α) → List β) (m : List (String × α)) (k : String)
    (hk : ∀ e ∈ m, ∀ b ∈ h e, keyOf b = e.1) (hno : ∀ e ∈ m, e.1 ≠ k) :
    (m.flatMap h).filter (fun b => keyOf b = k) = [] := by
  rw [List.filter_eq_nil_iff]
  intro b hb
  rcases List.mem_flatMap.mp hb with ⟨e, he, hbe⟩
  rw [hk e he b hbe]
  simpa using hno e he

theorem filter_key_flatMap (keyOf : β → String) (h : (String × α) → List β)
    (m : List (String × α)) (k : String) (hm : (m.map Prod.fst).Nodup)
    (hk : ∀ e ∈ m, ∀ b ∈ h e, keyOf b = e.1) :
    (m.flatMap h).filter (fun b => keyOf b = k) =
      match lookupKey m k with
      | some v => h (k, v)
      | none => [] := by
  induction m with
  | nil => rfl
  | cons e m ih =>
    rw [List.map_cons, List.nodup_cons] at hm
    rw [List.flatMap_cons, List.filter_append]
    by_cases hek : e.1 = k
    · have h1 : (h e).filter (fun b => keyOf b = k) = h e := by
        rw [List.filter_eq_self]
        intro b hb
        simp [hk e (List.mem_cons_self e m) b hb, hek]
      have hno : ∀ e' ∈ m, e'.1 ≠ k := by
        intro e' he' hk'
        exact hm.1 (by rw [hek, ← hk']; exact List.mem_map_of_mem Prod.fst he')
      rw [h1, filter_key_flatMap_nil keyOf h m k
        (fun e' he' => hk e' (List.mem_cons_of_mem e he')) hno]
      have hlk : lookupKey (e :: m) k = some e.2 := by
        unfold lookupKey
        simp [List.find?_cons, hek]
      rw [hlk]
      have he2 : e = (k, e.2) := by rw [← hek]
      simp [← he2]
    · have h1 : (h e).filter (fun b => keyOf b = k) = [] := by
        rw [List.filter_eq_nil_iff]
        intro b hb
        simp [hk e (List.mem_cons_self e m) b hb, hek]
      have hlk : lookupKey (e :: m) k = lookupKey m k := by
        unfold lookupKey
        simp [List.find?_cons, hek]
      rw [h1, hlk, List.nil_append,
        ih hm.2 (fun e' he' => hk e' (List.mem_cons_of_mem e he'))]

theorem filter_map_eq_flatMap (p : γ → Bool) (f : γ → δ) (l : List γ) :
    (l.filter p).map f = l.flatMap (fun a => if p a then [f a] else []) := by
  induction l with
  | nil => rfl
  | cons a l ih =>
    rw [List.flatMap_cons, List.filter_cons]
    by_cases hp : p a
    · simp [hp, ih]
    · simp [hp, ih]

theorem filterMap_eq_flatMap (f : γ → Option δ) (l : List γ) :
    l.filterMap f = l.flatMap (fun a => (f a).toList) := by
  induction l with
  | nil => rfl
  | cons a l ih =>
    rw [List.flatMap_cons, List.filterMap_cons]
    rcases f a with _ | b <;> simp [ih]

theorem lookup_self_of_mem (m : List (String × α))
    (hm : (m.map Prod.fst).Nodup) (e : String × α) (he : e ∈ m) :
    lookupKey m e.1 = some e.2 := by
  induction m with
  | nil => cases he
  | cons e0 m ih =>
    rw [List.map_cons, List.nodup_cons] at hm
    rcases List.mem_cons.mp he with he | he
    · unfold lookupKey
      simp [List.find?_cons, he]
    · have hne : e0.1 ≠ e.1 := by
        intro hk
        exact hm.1 (by rw [hk]; exact List.mem_map_of_mem Prod.fst he)
      unfold lookupKey
      simp only [List.find?_cons, hne, decide_eq_true_eq, if_false]
      have := ih hm.2 he
      unfold lookupKey at this
      simpa [hne] using this

theorem find?_map_pair (key : β → String) (f : β → α) (ps : List β)
    (k : String) :
    ((ps.map (fun p => (key p, f p))).find? (fun e => e.1 = k)) =
      (ps.find? (fun p => key p = k)).map (fun p => (key p, f p)) := by
  induction ps with
  | nil => rfl
  | cons p ps ih =>
    by_cases hk : key p = k
    · simp [List.find?_cons, hk]
    · simp [List.find?_cons, hk, ih]

end DictLemmas

/-! ### Properties of the absolute-dust diff engine -/

theorem buildMap_foldUpsert (ps : List Position) :
    buildMap ps = ps.foldl (fun m p => upsert (fun _ => p) (posKey p) m) [] := rfl

theorem buildMap_keysNodup (ps : List Position) :
    ((buildMap ps).map Prod.fst).Nodup := by
  rw [buildMap_foldUpsert]
  exact foldUpsert_keysNodup posKey (fun p _ => p) ps [] (by simp)

theorem buildMap_mem (ps : List Position) (e : String × Position)
    (he : e ∈ buildMap ps) : e.1 = posKey e.2 ∧ e.2 ∈ ps := by
  rw [buildMap_foldUpsert] at he
  rcases foldUpsert_mem posKey (fun p _ => p) ps [] e he with h | ⟨p, hp, o, ho⟩
  · cases h
  · rw [ho]
    exact ⟨rfl, hp⟩

theorem buildMap_eq (ps : List Position) (h : (ps.map posKey).Nodup) :
    buildMap ps = ps.map (fun p => (posKey p, p)) := by
  rw [buildMap_foldUpsert]
  rw [foldUpsert_disjoint posKey (fun p _ => p) ps [] h (by intro b _; rfl)]
  simp

theorem lookup_buildMap (ps : List Position) (k : String)
    (h : (ps.map posKey).Nodup) :
    lookupKey (buildMap ps) k = ps.find? (fun p => posKey p = k) := by
  rw [buildMap_foldUpsert,
    foldUpsert_lookup posKey (fun p _ => p) ps [] k h]
  rcases hf : ps.find? (fun p => posKey p = k) with _ | p <;> rfl

theorem tradeKey_mkTrade (a : String) (p : Position) (x : ℚ) :
    tradeKey (mkTrade a p x) = posKey p := rfl

theorem tradeForTarget_key (dust : ℚ) (cm : List (String × Position))
    (e : String × Position) (he : e.1 = posKey e.2) :
    ∀ t ∈ tradeForTarget dust cm e, tradeKey t = e.1 := by
  intro t ht
  unfold tradeForTarget at ht
  rcases h : lookupKey cm e.1 with _ | c <;> rw [h] at ht
  · simp at ht
    rw [ht, tradeKey_mkTrade, he]
  · dsimp only at ht
    by_cases h1 : ratAbs (e.2.amount - c.amount) > dust
    · rw [if_pos h1] at ht
      by_cases h2 : e.2.amount - c.amount > 0
      · rw [if_pos h2] at ht
        simp at ht
        rw [ht, tradeKey_mkTrade, he]
      · rw [if_neg h2] at ht
        simp at ht
        rw [ht, tradeKey_mkTrade, he]
    · rw [if_neg h1] at ht
      cases ht

/-! ### C6: diffing a position set against itself is a no-op -/

/-- C6: for every position set `S` and every dust threshold `dust ≥ 0`
(in particular the source's hard-coded `0.01`), the diff of `S` against
itself emits no trades. -/
theorem computeTrades_self_noop (S : List Position) (dust : ℚ)
    (hd : 0 ≤ dust) :
    computeTradesWith dust S S = [] ∧ computeTrades S S = [] := by
  have key : ∀ d : ℚ, 0 ≤ d → computeTradesWith d S S = [] := by
    intro d hdd
    unfold computeTradesWith
    dsimp only
    have hnd := buildMap_keysNodup S
    have h1 : (buildMap S).flatMap (tradeForTarget d (buildMap S)) = [] := by
      rw [List.flatMap_eq_nil_iff]
      intro e he
      unfold tradeForTarget
      rw [lookup_self_of_mem (buildMap S) hnd e he]
      dsimp only
      rw [sub_self]
      have hno : ¬ (ratAbs 0 > d) := by
        unfold ratAbs
        rw [if_neg (lt_irrefl 0)]
        exact not_lt.mpr hdd
      rw [if_neg hno]
    have h2 : (buildMap S).filter
        (fun e => (lookupKey (buildMap S) e.1).isNone) = [] := by
      rw [List.filter_eq_nil_iff]
      intro e he
      rw [lookup_self_of_mem (buildMap S) hnd e he]
      simp
    rw [h1, h2]
    rfl
  exact ⟨key dust hd, key (1/100) (by norm_num)⟩

theorem computeTrades_self_noop_witness :
    (0 : ℚ) ≤ 0 ∧
      (computeTradesWith 0 [⟨"USDC", "Kamino", "Main", 100, "Supply"⟩]
          [⟨"USDC", "Kamino", "Main", 100, "Supply"⟩] = [] ∧
        computeTrades [⟨"USDC", "Kamino", "Main", 100, "Supply"⟩]
          [⟨"USDC", "Kamino", "Main", 100, "Supply"⟩] = []) :=
  ⟨le_refl 0, computeTrades_self_noop
    [⟨"USDC", "Kamino", "Main", 100, "Supply"⟩] 0 (le_refl 0)⟩

/-! ### C7: every emitted trade has a known action and non-negative amount -/

/-- C7: when every current and target amount is non-negative, every trade
emitted by the diff engine has action `add`, `increase`, `decrease` or
`remove`, and a non-negative amount (a magnitude, never a signed delta). -/
theorem computeTrades_action_amount (current target : List Position)
    (hc : ∀ p ∈ current, 0 ≤ p.amount) (ht : ∀ p ∈ target, 0 ≤ p.amount) :
    ∀ t ∈ computeTrades current target,
      (t.action = "add" ∨ t.action = "increase" ∨ t.action = "decrease" ∨
        t.action = "remove") ∧ 0 ≤ t.amount := by
  intro t htr
  unfold computeTrades computeTradesWith at htr
  dsimp only at htr
  rcases List.mem_append.mp htr with h | h
  · rcases List.mem_flatMap.mp h with ⟨e, he, hte⟩
    have hep := buildMap_mem target e he
    unfold tradeForTarget at hte
    rcases hl : lookupKey (buildMap current) e.1 with _ | c <;> rw [hl] at hte
    · simp only [List.mem_singleton] at hte
      rw [hte]
      exact ⟨Or.inl rfl, ht e.2 hep.2⟩
    · dsimp only at hte
      by_cases h1 : ratAbs (e.2.amount - c.amount) > 1/100
      · rw [if_pos h1] at hte
        by_cases h2 : e.2.amount - c.amount > 0
        · rw [if_pos h2] at hte
          simp only [List.mem_singleton] at hte
          rw [hte]
          exact ⟨Or.inr (Or.inl rfl), le_of_lt h2⟩
        · rw [if_neg h2] at hte
          simp only [List.mem_singleton] at hte
          rw [hte]
          refine ⟨Or.inr (Or.inr (Or.inl rfl)), ?_⟩
          rw [ratAbs_eq_abs]
          exact abs_nonneg _
      · rw [if_neg h1] at hte
        cases hte
  · rcases List.mem_map.mp h with ⟨e, he, hte⟩
    have hep := buildMap_mem current e (List.mem_of_mem_filter he)
    rw [← hte]
    exact ⟨Or.inr (Or.inr (Or.inr rfl)), hc e.2 hep.2⟩

unseal Rat.sub Rat.add Rat.mul Rat.inv Rat.ofScientific in
theorem computeTrades_action_amount_witness :
    ((∀ p ∈ ([] : List Position), 0 ≤ p.amount) ∧
      (∀ p ∈ [(⟨"USDC", "Kamino", "Main", 200, "Supply"⟩ : Position)],
        0 ≤ p.amount)) ∧
    (((⟨"add", "USDC", "Kamino", "Main", 200, "Supply"⟩ : Trade).action = "add" ∨
      (⟨"add", "USDC", "Kamino", "Main", 200, "Supply"⟩ : Trade).action = "increase" ∨
      (⟨"add", "USDC", "Kamino", "Main", 200, "Supply"⟩ : Trade).action = "decrease" ∨
      (⟨"add", "USDC", "Kamino", "Main", 200, "Supply"⟩ : Trade).action = "remove") ∧
      0 ≤ (⟨"add", "USDC", "Kamino", "Main", 200, "Supply"⟩ : Trade).amount) :=
  ⟨⟨by decide, by decide⟩,
    computeTrades_action_amount [] [⟨"USDC", "Kamino", "Main", 200, "Supply"⟩]
      (by decide) (by decide)
      ⟨"add", "USDC", "Kamino", "Main", 200, "Supply"⟩ (by decide)⟩

/-! ### C1: per-key characterization of the emitted trades -/

unseal Rat.sub Rat.add Rat.mul Rat.inv Rat.ofScientific in
/-- C1 counterexample: a position set that is valid under the spec's
four-tuple identity key — two distinct positions differing only in
`obligation_type` — does not get one trade per key: diffed against an
empty target, the two positions collapse into the single 3-field map key
and the engine emits a single `remove` (of the later position only),
not one `remove` for each of the two four-tuple keys. -/
theorem computeTrades_obligation_collision_counterexample :
    (⟨"USDC", "Kamino", "Main", 100, "Supply"⟩ : Position) ≠
      ⟨"USDC", "Kamino", "Main", 50, "Borrow"⟩ ∧
    computeTrades [⟨"USDC", "Kamino", "Main", 100, "Supply"⟩,
        ⟨"USDC", "Kamino", "Main", 50, "Borrow"⟩] [] =
      [⟨"remove", "USDC", "Kamino", "Main", 50, "Borrow"⟩] := by
  refine ⟨by decide, ?_⟩
  decide

/-- C1 amended: the per-key coverage holds with the identity key the code
actually uses — the 3-field string `symbol:protocol:market` (see C2) — and
for inputs with at most one position per that key. For every key `k`:
a key only in `target` yields exactly one `add` carrying the target
amount; a key only in `current` yields exactly one `remove` carrying the
current amount; a shared key yields nothing when `|Δ| ≤ 0.01` with
`Δ = target.amount - current.amount`, exactly one `increase` of `Δ` when
`Δ > 0.01`, and exactly one `decrease` of `|Δ|` when `Δ < -0.01`.
Position sets that are valid under the spec's four-tuple key but contain
positions differing only in `obligation_type` are outside this hypothesis
and collapse in the maps (see the counterexample above). -/
theorem computeTrades_filter_key (current target : List Position)
    (hc : (current.map posKey).Nodup) (ht : (target.map posKey).Nodup)
    (k : String) :
    (computeTrades current target).filter (fun t => tradeKey t = k) =
      match target.find? (fun p => posKey p = k),
            current.find? (fun p => posKey p = k) with
      | some r, none => [mkTrade "add" r r.amount]
      | some r, some c =>
        if ratAbs (r.amount - c.amount) ≤ 1/100 then []
        else if r.amount - c.amount > 1/100 then
          [mkTrade "increase" r (r.amount - c.amount)]
        else [mkTrade "decrease" r (ratAbs (r.amount - c.amount))]
      | none, some c => [mkTrade "remove" c c.amount]
      | none, none => [] := by
  unfold computeTrades computeTradesWith
  dsimp only
  have hkk : ∀ e ∈ buildMap current, ∀ b ∈
      (if (lookupKey (buildMap target) e.1).isNone
        then [mkTrade "remove" e.2 e.2.amount] else ([] : List Trade)),
      tradeKey b = e.1 := by
    intro e he b hb
    by_cases hi : (lookupKey (buildMap target) e.1).isNone
    · rw [if_pos hi] at hb
      simp only [List.mem_singleton] at hb
      rw [hb, tradeKey_mkTrade, (buildMap_mem current e he).1]
    · rw [if_neg hi] at hb
      cases hb
  rw [List.filter_append,
    filter_key_flatMap tradeKey (tradeForTarget (1/100) (buildMap current))
      (buildMap target) k (buildMap_keysNodup target)
      (fun e he => tradeForTarget_key (1/100) (buildMap current) e
        (buildMap_mem target e he).1),
    filter_map_eq_flatMap,
    filter_key_flatMap tradeKey _ (buildMap current) k
      (buildMap_keysNodup current) hkk,
    lookup_buildMap target k ht, lookup_buildMap current k hc]
  rcases hft : target.find? (fun p => posKey p = k) with _ | r <;>
    rcases hfc : current.find? (fun p => posKey p = k) with _ | c
  · rfl
  · dsimp only
    rw [lookup_buildMap target k ht, hft]
    rfl
  · unfold tradeForTarget
    dsimp only
    rw [lookup_buildMap current k hc, hfc]
    rfl
  · unfold tradeForTarget
    dsimp only
    rw [lookup_buildMap current k hc, hfc, lookup_buildMap target k ht, hft]
    dsimp only
    simp only [Option.isNone_some, Bool.false_eq_true, if_false]
    rw [List.append_nil]
    by_cases habs : ratAbs (r.amount - c.amount) ≤ 1/100
    · rw [if_neg (not_lt.mpr habs), if_pos habs]
    · have hgt : ratAbs (r.amount - c.amount) > 1/100 := lt_of_not_le habs
      rw [if_pos hgt, if_neg habs]
      by_cases hpos : r.amount - c.amount > 0
      · have habs2 : ratAbs (r.amount - c.amount) = r.amount - c.amount := by
          unfold ratAbs
          rw [if_neg (not_lt.mpr (le_of_lt hpos))]
        rw [if_pos hpos, if_pos (by rw [← habs2]; exact hgt)]
      · have hlt : ¬ (r.amount - c.amount > 1/100) := by
          intro hcon
          exact hpos (lt_trans (by norm_num) hcon)
        rw [if_neg hpos, if_neg hlt]

unseal Rat.sub Rat.add Rat.mul Rat.inv Rat.ofScientific in
theorem computeTrades_filter_key_witness :
    (([(⟨"USDC", "Kamino", "Main", 100, "Supply"⟩ : Position)].map posKey).Nodup ∧
      ([(⟨"USDC", "Kamino", "Main", 200, "Supply"⟩ : Position)].map posKey).Nodup) ∧
    (computeTrades [⟨"USDC", "Kamino", "Main", 100, "Supply"⟩]
        [⟨"USDC", "Kamino", "Main", 200, "Supply"⟩]).filter
      (fun t => tradeKey t = "USDC:Kamino:Main") =
      [⟨"increase", "USDC", "Kamino", "Main", 100, "Supply"⟩] :=
  ⟨⟨by decide, by decide⟩, by
    rw [computeTrades_filter_key
      [⟨"USDC", "Kamino", "Main", 100, "Supply"⟩]
      [⟨"USDC", "Kamino", "Main", 200, "Supply"⟩]
      (by decide) (by decide) "USDC:Kamino:Main"]
    decide⟩

/-! ### C2: the identity key of the diff engine -/

/-- C2 counterexample: two positions that differ only in
`obligation_type` share the identity key `symbol:protocol:market` built by
`_generate_execution_plan`, so they are NOT distinct entries — the second
overwrites the first in the position map. -/
theorem posKey_ignores_obligation_counterexample :
    posKey ⟨"USDC", "Kamino", "Main", 100, "Supply"⟩ =
      posKey ⟨"USDC", "Kamino", "Main", 50, "Borrow"⟩ ∧
    (⟨"USDC", "Kamino", "Main", 100, "Supply"⟩ : Position).obligation_type ≠
      (⟨"USDC", "Kamino", "Main", 50, "Borrow"⟩ : Position).obligation_type ∧
    buildMap [⟨"USDC", "Kamino", "Main", 100, "Supply"⟩,
        ⟨"USDC", "Kamino", "Main", 50, "Borrow"⟩] =
      [("USDC:Kamino:Main", ⟨"USDC", "Kamino", "Main", 50, "Borrow"⟩)] := by
  refine ⟨rfl, by decide, ?_⟩
  decide

/-- C2 amended: the diff engine's identity key is the string
`symbol:protocol_name:market_name` — `obligation_type` is not part of it.
Positions equal on those three fields share a key whatever their
obligation types, the later of two such positions overwrites the earlier
in the dict, and every dict the engine builds has pairwise-distinct keys. -/
theorem posKey_three_fields (p q : Position)
    (h1 : p.symbol = q.symbol) (h2 : p.protocol_name = q.protocol_name)
    (h3 : p.market_name = q.market_name) :
    posKey p = posKey q ∧
    buildMap [p, q] = [(posKey q, q)] ∧
    ∀ ps : List Position, ((buildMap ps).map Prod.fst).Nodup := by
  have hk : posKey p = posKey q := by
    unfold posKey
    rw [h1, h2, h3]
  refine ⟨hk, ?_, buildMap_keysNodup⟩
  show insertPos (insertPos [] p) q = [(posKey q, q)]
  unfold insertPos
  rw [upsert_of_not_any _ _ [] rfl]
  unfold upsert
  simp only [List.nil_append]
  have hany : [((posKey p, p) : String × Position)].any
      (fun e => e.1 = posKey q) = true := by
    simp [hk]
  rw [if_pos hany]
  simp [hk]

unseal Rat.sub Rat.add Rat.mul Rat.inv Rat.ofScientific in
theorem posKey_three_fields_witness :
    posKey ⟨"USDC", "Kamino", "Main", 100, "Supply"⟩ =
      posKey ⟨"USDC", "Kamino", "Main", 50, "Borrow"⟩ ∧
    buildMap [⟨"USDC", "Kamino", "Main", 100, "Supply"⟩,
        ⟨"USDC", "Kamino", "Main", 50, "Borrow"⟩] =
      [(posKey (⟨"USDC", "Kamino", "Main", 50, "Borrow"⟩ : Position),
        ⟨"USDC", "Kamino", "Main", 50, "Borrow"⟩)] ∧
    ∀ ps : List Position, ((buildMap ps).map Prod.fst).Nodup :=
  posKey_three_fields ⟨"USDC", "Kamino", "Main", 100, "Supply"⟩
    ⟨"USDC", "Kamino", "Main", 50, "Borrow"⟩ rfl rfl rfl

/-! ### C3 / C10: the sequencer -/

instance : IsTotal Trade amountGE := ⟨fun a b => le_total b.amount a.amount⟩

instance : IsTrans Trade amountGE := ⟨fun _ _ _ h1 h2 => le_trans h2 h1⟩

theorem filter_amount_orderedInsert (v : ℚ) (t : Trade) (l : List Trade) :
    (l.orderedInsert amountGE t).filter (fun u => u.amount = v) =
      (t :: l).filter (fun u => u.amount = v) := by
  induction l with
  | nil => rfl
  | cons u us ih =>
    rw [List.orderedInsert]
    by_cases h : amountGE t u
    · rw [if_pos h]
    · rw [if_neg h]
      have hlt : t.amount < u.amount := lt_of_not_le h
      by_cases hu : u.amount = v <;> by_cases htv : t.amount = v
      · exact absurd (htv ▸ hu ▸ rfl : t.amount = u.amount) (ne_of_lt hlt)
      · simp [List.filter_cons, hu, htv, ih]
      · simp [List.filter_cons, hu, htv, ih]
      · simp [List.filter_cons, hu, htv, ih]

theorem filter_amount_insertionSort (v : ℚ) (l : List Trade) :
    (l.insertionSort amountGE).filter (fun u => u.amount = v) =
      l.filter (fun u => u.amount = v) := by
  induction l with
  | nil => rfl
  | cons t ts ih =>
    rw [List.insertionSort, filter_amount_orderedInsert]
    simp only [List.filter_cons, ih]

theorem mem_sort_withdrawals (trades : List Trade) (t : Trade)
    (ht : t ∈ (trades.filter isWithdrawal).insertionSort amountGE) :
    isWithdrawal t = true :=
  List.of_mem_filter ((List.mem_insertionSort amountGE).mp ht)

theorem mem_sort_deposits (trades : List Trade) (t : Trade)
    (ht : t ∈ (trades.filter (fun u => !isWithdrawal u)).insertionSort amountGE) :
    isWithdrawal t = false := by
  have h := List.of_mem_filter ((List.mem_insertionSort amountGE).mp ht)
  simpa using h

/-- C3: the sequencer returns a permutation of its input in which every
`remove`/`decrease` trade precedes every other trade, amounts are
non-increasing within each of the two partitions, and — the sort being
stable — the trades of one partition sharing any fixed amount keep their
input relative order. -/
theorem determine_transaction_order_spec (trades : List Trade) :
    (determine_transaction_order trades).Perm trades ∧
    List.Pairwise (fun a b => isWithdrawal b = true → isWithdrawal a = true)
      (determine_transaction_order trades) ∧
    List.Pairwise
      (fun a b => isWithdrawal a = isWithdrawal b → b.amount ≤ a.amount)
      (determine_transaction_order trades) ∧
    ∀ v : ℚ,
      (determine_transaction_order trades).filter
          (fun t => isWithdrawal t && decide (t.amount = v)) =
        trades.filter (fun t => isWithdrawal t && decide (t.amount = v)) ∧
      (determine_transaction_order trades).filter
          (fun t => !isWithdrawal t && decide (t.amount = v)) =
        trades.filter (fun t => !isWithdrawal t && decide (t.amount = v)) := by
  unfold determine_transaction_order
  dsimp only
  have hsortW : List.Pairwise amountGE
      ((trades.filter isWithdrawal).insertionSort amountGE) :=
    List.sorted_insertionSort amountGE _
  have hsortD : List.Pairwise amountGE
      ((trades.filter (fun u => !isWithdrawal u)).insertionSort amountGE) :=
    List.sorted_insertionSort amountGE _
  refine ⟨?_, ?_, ?_, ?_⟩
  · exact ((List.perm_insertionSort _ _).append
      (List.perm_insertionSort _ _)).trans (List.filter_append_perm _ _)
  · rw [List.pairwise_append]
    refine ⟨hsortW.imp_of_mem ?_, hsortD.imp_of_mem ?_, ?_⟩
    · intro a b ha _ _ _
      exact mem_sort_withdrawals trades a ha
    · intro a b _ hb _ hcon
      rw [mem_sort_deposits trades b hb] at hcon
      cases hcon
    · intro a ha b _ _
      exact mem_sort_withdrawals trades a ha
  · rw [List.pairwise_append]
    refine ⟨hsortW.imp_of_mem ?_, hsortD.imp_of_mem ?_, ?_⟩
    · intro a b _ _ hge _
      exact hge
    · intro a b _ _ hge _
      exact hge
    · intro a ha b hb heq
      rw [mem_sort_withdrawals trades a ha, mem_sort_deposits trades b hb] at heq
      cases heq
  · intro v
    constructor
    · rw [List.filter_append]
      have h1 : ((trades.filter isWithdrawal).insertionSort amountGE).filter
          (fun t => isWithdrawal t && decide (t.amount = v)) =
          ((trades.filter isWithdrawal).insertionSort amountGE).filter
          (fun t => decide (t.amount = v)) := by
        apply List.filter_congr
        intro x hx
        rw [mem_sort_withdrawals trades x hx, Bool.true_and]
      have h2 : ((trades.filter (fun u => !isWithdrawal u)).insertionSort
          amountGE).filter (fun t => isWithdrawal t && decide (t.amount = v)) =
          [] := by
        rw [List.filter_eq_nil_iff]
        intro x hx
        rw [mem_sort_deposits trades x hx]
        simp
      rw [h1, h2, filter_amount_insertionSort, List.append_nil,
        List.filter_filter]
      apply List.filter_congr
      intro x _
      exact Bool.and_comm _ _
    · rw [List.filter_append]
      have h1 : ((trades.filter (fun u => !isWithdrawal u)).insertionSort
          amountGE).filter (fun t => !isWithdrawal t && decide (t.amount = v)) =
          ((trades.filter (fun u => !isWithdrawal u)).insertionSort
            amountGE).filter (fun t => decide (t.amount = v)) := by
        apply List.filter_congr
        intro x hx
        rw [mem_sort_deposits trades x hx]
        rfl
      have h2 : ((trades.filter isWithdrawal).insertionSort amountGE).filter
          (fun t => !isWithdrawal t && decide (t.amount = v)) = [] := by
        rw [List.filter_eq_nil_iff]
        intro x hx
        rw [mem_sort_withdrawals trades x hx]
        simp
      rw [h1, h2, filter_amount_insertionSort, List.nil_append,
        List.filter_filter]
      apply List.filter_congr
      intro x _
      exact Bool.and_comm _ _

/-- C10: the sequencer partitions by exclusion — every trade whose action
is neither `remove` nor `decrease` (an `adjust` or any unrecognized action
included) lands in the deposits partition, which follows every
withdrawal in the output. -/
theorem determine_transaction_order_exclusion (trades : List Trade) :
    ∃ W D, determine_transaction_order trades = W ++ D ∧
      (∀ t ∈ W, isWithdrawal t = true) ∧
      (∀ t ∈ D, isWithdrawal t = false) ∧
      W.Perm (trades.filter isWithdrawal) ∧
      D.Perm (trades.filter (fun u => !isWithdrawal u)) ∧
      (∀ t ∈ trades, t.action ≠ "remove" → t.action ≠ "decrease" → t ∈ D) := by
  refine ⟨(trades.filter isWithdrawal).insertionSort amountGE,
    (trades.filter (fun u => !isWithdrawal u)).insertionSort amountGE,
    rfl, mem_sort_withdrawals trades, mem_sort_deposits trades,
    List.perm_insertionSort _ _, List.perm_insertionSort _ _, ?_⟩
  intro t ht h1 h2
  have hw : isWithdrawal t = false := by
    unfold isWithdrawal
    simp [h1, h2]
  exact (List.mem_insertionSort amountGE).mpr
    (List.mem_filter.mpr ⟨ht, by rw [hw]; rfl⟩)

/-! ### C4: urgency classification -/

/-- C4: the urgency is `none` on an empty trade list; otherwise `high`
when the yield change is at least 1.0 and at least two trades are full
`add`/`remove` changes; otherwise `medium` when either of those holds;
otherwise `low`. -/
theorem determine_trade_urgency_spec (yield_change : ℚ) (trades : List Trade) :
    determine_trade_urgency yield_change trades =
      if trades = [] then "none"
      else if 1 ≤ yield_change ∧ 2 ≤
          (trades.filter (fun t => t.action = "add" || t.action = "remove")).length
        then "high"
      else if 1 ≤ yield_change ∨ 2 ≤
          (trades.filter (fun t => t.action = "add" || t.action = "remove")).length
        then "medium"
      else "low" := by
  unfold determine_trade_urgency
  by_cases h0 : trades = []
  · rw [if_pos (by rw [h0]; rfl), if_pos h0]
  · rw [if_neg (by simp [List.isEmpty_iff, h0]), if_neg h0]
    dsimp only
    by_cases hy : (1 : ℚ) ≤ yield_change <;>
      by_cases hn : 2 ≤ (trades.filter
        (fun t => t.action = "add" || t.action = "remove")).length <;>
      simp [hy, hn, ge_iff_le]

/-! ### C8: the relative-threshold mode and zero current amounts -/

theorem buildPMMap_foldUpsert (ps : List Position) :
    buildPMMap ps = ps.foldl (fun m p => upsert (fun _ => p) (pmKey p) m) [] :=
  rfl

theorem buildPMMap_mem (ps : List Position) (e : String × Position)
    (he : e ∈ buildPMMap ps) : e.1 = pmKey e.2 ∧ e.2 ∈ ps := by
  rw [buildPMMap_foldUpsert] at he
  rcases foldUpsert_mem pmKey (fun p _ => p) ps [] e he with h | ⟨p, hp, o, ho⟩
  · cases h
  · rw [ho]
    exact ⟨rfl, hp⟩

theorem mapM_isSome {α β : Type} (f : α → Option β) (l : List α)
    (h : ∀ a ∈ l, (f a).isSome) : (l.mapM f).isSome := by
  induction l with
  | nil => rfl
  | cons a l ih =>
    rw [List.mapM_cons]
    rcases hfa : f a with _ | b
    · have := h a (List.mem_cons_self a l)
      rw [hfa] at this
      cases this
    · have hrest := ih (fun a ha => h a (List.mem_cons_of_mem _ ha))
      rcases hr : l.mapM f with _ | bs
      · rw [hr] at hrest
        cases hrest
      · simp [hfa, hr]

/-- C8 counterexample: a key present in both current and target whose
current amount is 0 does NOT pass through the arithmetic — the relative
test divides `abs(difference)` by the zero current amount and the
computation fails (`ZeroDivisionError`, modelled as `none`) instead of
returning a trade list. -/
theorem calculate_required_trades_zero_counterexample :
    pmKey (⟨"USDC", "ProtoA", "MktX", 0, "Supply"⟩ : Position) =
      pmKey (⟨"USDC", "ProtoA", "MktX", 10, "Supply"⟩ : Position) ∧
    (⟨"USDC", "ProtoA", "MktX", 0, "Supply"⟩ : Position).amount = 0 ∧
    calculate_required_trades [⟨"USDC", "ProtoA", "MktX", 0, "Supply"⟩]
      [⟨"USDC", "ProtoA", "MktX", 10, "Supply"⟩] = none := by
  refine ⟨rfl, rfl, ?_⟩
  decide

/-- C8 amended: the relative-threshold diff completes and returns a trade
list whenever every position of `current` whose key is shared with
`target` has a nonzero amount; a shared key with current amount 0 aborts
the computation with a division-by-zero failure instead. -/
theorem calculate_required_trades_some (current target : List Position)
    (h : ∀ c ∈ current,
      (lookupKey (buildPMMap target) (pmKey c)).isSome = true → c.amount ≠ 0) :
    (calculate_required_trades current target).isSome = true := by
  unfold calculate_required_trades
  dsimp only
  have hs : ((buildPMMap current).mapM
      (tradeForCurrent (buildPMMap target))).isSome = true := by
    apply mapM_isSome
    intro e he
    have hmem := buildPMMap_mem current e he
    unfold tradeForCurrent
    rcases hl : lookupKey (buildPMMap target) e.1 with _ | t
    · rfl
    · dsimp only
      have hne : e.2.amount ≠ 0 := by
        apply h e.2 hmem.2
        rw [← hmem.1, hl]
        rfl
      rw [if_neg hne]
      by_cases h5 : ratAbs (t.amount - e.2.amount) / e.2.amount > 5/100
      · rw [if_pos h5]
        rfl
      · rw [if_neg h5]
        rfl
  rcases hmm : (buildPMMap current).mapM (tradeForCurrent (buildPMMap target))
    with _ | parts
  · rw [hmm] at hs
    cases hs
  · rfl

unseal Rat.sub Rat.add Rat.mul Rat.inv Rat.ofScientific in
theorem calculate_required_trades_some_witness :
    (∀ c ∈ [(⟨"USDC", "ProtoA", "MktX", 100, "Supply"⟩ : Position)],
      (lookupKey (buildPMMap [(⟨"USDC", "ProtoA", "MktX", 200, "Supply"⟩ :
        Position)]) (pmKey c)).isSome = true → c.amount ≠ 0) ∧
    (calculate_required_trades [⟨"USDC", "ProtoA", "MktX", 100, "Supply"⟩]
      [⟨"USDC", "ProtoA", "MktX", 200, "Supply"⟩]).isSome = true :=
  ⟨by decide, calculate_required_trades_some
    [⟨"USDC", "ProtoA", "MktX", 100, "Supply"⟩]
    [⟨"USDC", "ProtoA", "MktX", 200, "Supply"⟩] (by decide)⟩

/-! ### C9: unparsable amounts are silently replaced by 0 -/

unseal Rat.sub Rat.add Rat.mul Rat.inv Rat.ofScientific in
/-- C9 counterexample: with an unparsable amount string ("abc"), the diff
engine does not fail fast — the bare `except` of `_to_decimal` substitutes
zero and a complete trade list is produced, the parse failure silently
swallowed. -/
theorem generate_plan_swallows_counterexample :
    parseDecimal "abc" = none ∧
    generate_execution_plan_trades
        [⟨"USDC", "Kamino", "Main", "abc", "Supply"⟩] [] =
      [⟨"remove", "USDC", "Kamino", "Main", 0, "Supply"⟩] := by
  refine ⟨by decide, ?_⟩
  decide

/-- C9 amended: on a position whose ASCII amount string the `Decimal`
constructor rejects (within ASCII, `parseDecimal` is exactly the
constructor's accepted grammar — whitespace stripping, underscore removal,
exponents and the non-finite specials included — so `parseDecimal = none`
coincides with `Decimal(value)` raising), `_to_decimal` silently
substitutes 0; no error reaches the caller, and the diff proceeds:
diffing such a position against an empty target yields a normal `remove`
trade carrying the substituted amount 0. -/
theorem to_decimal_swallows (p : RawPosition)
    (hascii : p.amount.toList.all (fun c => c.toNat < 128) = true)
    (h : parseDecimal p.amount = none) :
    (parsePosition p).amount = 0 ∧
    generate_execution_plan_trades [p] [] =
      [mkTrade "remove" (parsePosition p) 0] := by
  have ha : (parsePosition p).amount = 0 := by
    show to_decimal p.amount = 0
    unfold to_decimal
    rw [h]
  refine ⟨ha, ?_⟩
  show computeTrades [parsePosition p] [] = [mkTrade "remove" (parsePosition p) 0]
  rw [← ha]
  rfl

unseal Rat.sub Rat.add Rat.mul Rat.inv Rat.ofScientific in
theorem to_decimal_swallows_witness :
    ((⟨"USDC", "Kamino", "Main", "12x", "Supply"⟩ :
        RawPosition).amount.toList.all (fun c => c.toNat < 128) = true ∧
      parseDecimal
        (⟨"USDC", "Kamino", "Main", "12x", "Supply"⟩ :
          RawPosition).amount = none) ∧
    ((parsePosition ⟨"USDC", "Kamino", "Main", "12x", "Supply"⟩).amount = 0 ∧
      generate_execution_plan_trades
          [⟨"USDC", "Kamino", "Main", "12x", "Supply"⟩] [] =
        [mkTrade "remove"
          (parsePosition ⟨"USDC", "Kamino", "Main", "12x", "Supply"⟩) 0]) :=
  ⟨⟨by decide, by decide⟩,
    to_decimal_swallows ⟨"USDC", "Kamino", "Main", "12x", "Supply"⟩
      (by decide) (by decide)⟩

/-! ### C5: the optimization blender -/

theorem mem_upsert_forall {α : Type} (f : Option α → α) (k : String)
    (m : List (String × α)) (Q : String × α → Prop)
    (hm : ∀ e ∈ m, Q e)
    (hf : ∀ o : Option α, (∀ v, o = some v → Q (k, v)) → Q (k, f o)) :
    ∀ e ∈ upsert f k m, Q e := by
  intro e he
  unfold upsert at he
  cases hb : m.any (fun e => e.1 = k) with
  | true =>
    rw [if_pos hb] at he
    rcases List.mem_map.mp he with ⟨e', he', rfl⟩
    by_cases hek : e'.1 = k
    · rw [if_pos hek]
      apply hf (some e'.2)
      intro v hv
      have hv2 := Option.some.inj hv
      rw [← hv2]
      have hq := hm e' he'
      have hpair : e' = (k, e'.2) := by rw [← hek]
      rwa [hpair] at hq
    · rw [if_neg hek]
      exact hm e' he'
  | false =>
    rw [if_neg (by simp [hb])] at he
    rcases List.mem_append.mp he with he | he
    · exact hm e he
    · rw [List.mem_singleton.mp he]
      exact hf none (fun v hv => by cases hv)

theorem foldUpsert_forall {α β : Type} (key : β → String)
    (g : β → Option α → α) (bs : List β) (m : List (String × α))
    (Q : String × α → Prop) (hm : ∀ e ∈ m, Q e)
    (hg : ∀ b ∈ bs, ∀ o : Option α,
      (∀ v, o = some v → Q (key b, v)) → Q (key b, g b o)) :
    ∀ e ∈ bs.foldl (fun m b => upsert (g b) (key b) m) m, Q e := by
  induction bs generalizing m with
  | nil => exact hm
  | cons b bs ih =>
    apply ih
    · exact mem_upsert_forall (g b) (key b) m Q hm
        (hg b (List.mem_cons_self b bs))
    · intro b' hb'
      exact hg b' (List.mem_cons_of_mem b hb')

/-- The `protocol|market` string an entry of the blend map describes. -/
def bentryKey (be : BlendEntry) : String :=
  be.protocol_name ++ "|" ++ be.market_name

theorem blendMap_entry_key (yps rps : List Position) :
    ∀ e ∈ blendMap yps rps, e.1 = bentryKey e.2 := by
  unfold blendMap
  apply foldUpsert_forall pmKey blendRiskStep rps _
    (fun e => e.1 = bentryKey e.2)
  · apply foldUpsert_forall pmKey (fun p _ => blendYieldEntry p) yps []
      (fun e => e.1 = bentryKey e.2)
    · intro e he
      cases he
    · intro p _ o _
      rfl
  · intro p _ o ho
    rcases o with _ | be
    · rfl
    · exact ho be rfl

theorem blendMap_keysNodup (yps rps : List Position) :
    ((blendMap yps rps).map Prod.fst).Nodup := by
  unfold blendMap
  exact foldUpsert_keysNodup pmKey blendRiskStep rps _
    (foldUpsert_keysNodup pmKey (fun p _ => blendYieldEntry p) yps [] (by simp))

theorem lookupKey_nil {α : Type} (k : String) :
    lookupKey ([] : List (String × α)) k = none := rfl

theorem lookup_blendMap (yps rps : List Position) (k : String)
    (hy : (yps.map pmKey).Nodup) (hr : (rps.map pmKey).Nodup) :
    lookupKey (blendMap yps rps) k =
      match yps.find? (fun p => pmKey p = k),
            rps.find? (fun p => pmKey p = k) with
      | some yp, some rp => some ⟨yp.symbol, yp.protocol_name, yp.market_name,
          yp.amount, rp.amount, yp.obligation_type⟩
      | some yp, none => some ⟨yp.symbol, yp.protocol_name, yp.market_name,
          yp.amount, 0, yp.obligation_type⟩
      | none, some rp => some ⟨rp.symbol, rp.protocol_name, rp.market_name,
          0, rp.amount, rp.obligation_type⟩
      | none, none => none := by
  unfold blendMap
  rcases hfr : rps.find? (fun p => pmKey p = k) with _ | rp <;>
    rcases hfy : yps.find? (fun p => pmKey p = k) with _ | yp <;>
    rw [foldUpsert_lookup pmKey blendRiskStep rps _ k hr, hfr,
      foldUpsert_lookup pmKey (fun p _ => blendYieldEntry p) yps [] k hy, hfy] <;>
    rfl

theorem blendOutput_key (yw rw : ℚ) (e : String × BlendEntry)
    (he : e.1 = bentryKey e.2) :
    ∀ b ∈ (blendOutput yw rw e).toList, pmKey b = e.1 := by
  intro b hb
  unfold blendOutput at hb
  dsimp only at hb
  by_cases h : e.2.yield_amount * yw + e.2.risk_amount * rw > 0
  · rw [if_pos h] at hb
    simp only [Option.toList_some, List.mem_singleton] at hb
    rw [hb, he]
    rfl
  · rw [if_neg h] at hb
    cases hb

theorem combine_strategies_filter_key (yps rps : List Position) (yw rw : ℚ)
    (hy : (yps.map pmKey).Nodup) (hr : (rps.map pmKey).Nodup) (k : String) :
    (combine_strategies yps rps yw rw).filter (fun p => pmKey p = k) =
      match yps.find? (fun p => pmKey p = k),
            rps.find? (fun p => pmKey p = k) with
      | some yp, some rp =>
        if yp.amount * yw + rp.amount * rw > 0 then
          [⟨yp.symbol, yp.protocol_name, yp.market_name,
            round4 (yp.amount * yw + rp.amount * rw), yp.obligation_type⟩]
        else []
      | some yp, none =>
        if yp.amount * yw + 0 * rw > 0 then
          [⟨yp.symbol, yp.protocol_name, yp.market_name,
            round4 (yp.amount * yw + 0 * rw), yp.obligation_type⟩]
        else []
      | none, some rp =>
        if 0 * yw + rp.amount * rw > 0 then
          [⟨rp.symbol, rp.protocol_name, rp.market_name,
            round4 (0 * yw + rp.amount * rw), rp.obligation_type⟩]
        else []
      | none, none => [] := by
  unfold combine_strategies
  rw [filterMap_eq_flatMap,
    filter_key_flatMap pmKey (fun e => (blendOutput yw rw e).toList)
      (blendMap yps rps) k (blendMap_keysNodup yps rps)
      (fun e he => blendOutput_key yw rw e (blendMap_entry_key yps rps e he)),
    lookup_blendMap yps rps k hy hr]
  rcases hfy : yps.find? (fun p => pmKey p = k) with _ | yp <;>
    rcases hfr : rps.find? (fun p => pmKey p = k) with _ | rp
  · rfl
  · dsimp only
    unfold blendOutput
    dsimp only
    by_cases h : 0 * yw + rp.amount * rw > 0
    · rw [if_pos h, if_pos h]
      rfl
    · rw [if_neg h, if_neg h]
      rfl
  · dsimp only
    unfold blendOutput
    dsimp only
    by_cases h : yp.amount * yw + 0 * rw > 0
    · rw [if_pos h, if_pos h]
      rfl
    · rw [if_neg h, if_neg h]
      rfl
  · dsimp only
    unfold blendOutput
    dsimp only
    by_cases h : yp.amount * yw + rp.amount * rw > 0
    · rw [if_pos h, if_pos h]
      rfl
    · rw [if_neg h, if_neg h]
      rfl

unseal Rat.sub Rat.add Rat.mul Rat.inv Rat.ofScientific in
/-- C5 counterexample: the blender's drop test is on the unrounded
weighted amount (`weighted_amount > 0`), not on the rounded
`blendedAmount`. With riskScore 0 (weights 0.8/0.2) a yield position of
0.00001 gives a weighted amount of 0.000008 > 0, so it is kept — and the
emitted position carries `round(0.000008, 4) = 0`: a position with
blendedAmount 0 is present in the output, not dropped. -/
theorem combine_strategies_zero_counterexample :
    optimizationWeights 0 = (8/10, 2/10) ∧
    combine_strategies [⟨"USDC", "ProtoA", "MktX", 1/100000, "Supply"⟩] []
        (8/10) (2/10) =
      [⟨"USDC", "ProtoA", "MktX", 0, "Supply"⟩] := by
  constructor
  · decide
  · decide

/-- C5 amended: the weights are selected exactly as claimed and always sum
to 1; the two lists are merged by the `protocol|market` key with a missing
side defaulting to amount 0; and a position is kept in the output iff its
UNROUNDED weighted amount `y*yw + r*rw` is positive — the emitted amount
being that value rounded to 4 decimal places, which can itself be 0. -/
theorem blend_spec (risk_score yw rw : ℚ) (yps rps : List Position)
    (hy : (yps.map pmKey).Nodup) (hr : (rps.map pmKey).Nodup)
    (hw : optimizationWeights risk_score = (yw, rw)) :
    yw + rw = 1 ∧
    (risk_score < 3 → (yw, rw) = (8/10, 2/10)) ∧
    (3 ≤ risk_score → risk_score < 6 → (yw, rw) = (5/10, 5/10)) ∧
    (6 ≤ risk_score → (yw, rw) = (2/10, 8/10)) ∧
    ∀ k : String,
      (combine_strategies yps rps yw rw).filter (fun p => pmKey p = k) =
        match yps.find? (fun p => pmKey p = k),
              rps.find? (fun p => pmKey p = k) with
        | some yp, some rp =>
          if yp.amount * yw + rp.amount * rw > 0 then
            [⟨yp.symbol, yp.protocol_name, yp.market_name,
              round4 (yp.amount * yw + rp.amount * rw), yp.obligation_type⟩]
          else []
        | some yp, none =>
          if yp.amount * yw + 0 * rw > 0 then
            [⟨yp.symbol, yp.protocol_name, yp.market_name,
              round4 (yp.amount * yw + 0 * rw), yp.obligation_type⟩]
          else []
        | none, some rp =>
          if 0 * yw + rp.amount * rw > 0 then
            [⟨rp.symbol, rp.protocol_name, rp.market_name,
              round4 (0 * yw + rp.amount * rw), rp.obligation_type⟩]
          else []
        | none, none => [] := by
  have hmain := combine_strategies_filter_key yps rps yw rw hy hr
  unfold optimizationWeights at hw
  by_cases h3 : risk_score < 3
  · rw [if_pos h3] at hw
    injection hw with h1 h2
    subst h1
    subst h2
    refine ⟨by norm_num, fun _ => rfl, ?_, ?_, hmain⟩
    · intro hge _
      exact absurd h3 (not_lt.mpr hge)
    · intro hge
      exact absurd h3 (not_lt.mpr (le_trans (by norm_num) hge))
  · rw [if_neg h3] at hw
    by_cases h6 : risk_score < 6
    · rw [if_pos h6] at hw
      injection hw with h1 h2
      subst h1
      subst h2
      refine ⟨by norm_num, fun hlt => absurd hlt h3, fun _ _ => rfl, ?_,
        hmain⟩
      intro hge
      exact absurd h6 (not_lt.mpr hge)
    · rw [if_neg h6] at hw
      injection hw with h1 h2
      subst h1
      subst h2
      exact ⟨by norm_num, fun hlt => absurd hlt h3,
        fun _ h6' => absurd h6' h6, fun _ => rfl, hmain⟩

unseal Rat.sub Rat.add Rat.mul Rat.inv Rat.ofScientific in
theorem blend_spec_witness :
    ((2 : ℚ)/10 + 8/10 = 1) ∧
    (combine_strategies [⟨"USDC", "ProtoA", "MktX", 50, "Supply"⟩]
        [⟨"USDC", "ProtoA", "MktX", 30, "Supply"⟩] (2/10) (8/10)).filter
      (fun p => pmKey p = "ProtoA|MktX") =
      [⟨"USDC", "ProtoA", "MktX", 34, "Supply"⟩] := by
  have h := blend_spec 7 (2/10) (8/10)
    [⟨"USDC", "ProtoA", "MktX", 50, "Supply"⟩]
    [⟨"USDC", "ProtoA", "MktX", 30, "Supply"⟩]
    (by decide) (by decide) (by decide)
  refine ⟨h.1, ?_⟩
  rw [h.2.2.2.2 "ProtoA|MktX"]
  decide
